import Mathlib

/-!
Verification development for the aiNewsAgent news ranking / deduplication
pipeline.  The JavaScript source is shallowly embedded into Lean:

* lodash `_.orderBy(list, [key], ['desc'])` is a stable sort by a numeric
  key; it is embedded as the stable insertion sort `sortDescBy` (any two
  stable sorts by the same key agree extensionally).
* lodash `_.chunk(list, g)` is embedded as `chunkList` (for `g = 0` lodash
  returns `[]`, which is modelled directly).
* The external LLM ("oracle") is a parameter of every embedded function:
  call sites receive the already-split / parsed response, where `none`
  models a thrown transport error or an unparsable body, and a token-level
  `Option Int` models a comma token whose `parseInt` is `NaN`.
* Scores are JavaScript numbers that are only ever summed integer points;
  they are embedded as `Int`.
-/

/-- An article as it flows through qualification and clustering: a stable
identity (`url`), a display `title` and the accumulated qualification
`score`. -/
structure Article where
  url : String
  title : String
  score : Int
deriving DecidableEq, Repr

/-- An article inside the final tournament (`runFinalTournament` adds the
`tournamentScore` field on entry). -/
structure FArticle where
  url : String
  title : String
  score : Int
  tournamentScore : Int
deriving DecidableEq, Repr

/-- Output row of `runFinalTournament`: the article plus its dense rank. -/
structure RankedArticle extends FArticle where
  rank : Nat
deriving DecidableEq, Repr

/-- The identity-carrying part of an `FArticle` (everything the tournament
never mutates). -/
def FArticle.base (a : FArticle) : String × String × Int :=
  (a.url, a.title, a.score)

/-- One step of the stable insertion sort: insert `a` before the first
element whose key is strictly smaller, i.e. after every element whose key
is at least `key a` (descending order, stable). -/
def insertDesc (key : α → Int) (a : α) : List α → List α
  | [] => [a]
  | b :: bs => if key b < key a then a :: b :: bs else b :: insertDesc key a bs

/-- Stable sort by a numeric key, descending: the embedding of lodash
`_.orderBy(l, [key], ['desc'])`. -/
def sortDescBy (key : α → Int) (l : List α) : List α :=
  l.foldl (fun acc a => insertDesc key a acc) []

/-- Pairing of list elements with their positions, starting at `k`
(used to speak about original positions in stability statements). -/
def enumFromN (k : Nat) : List α → List (Nat × α)
  | [] => []
  | a :: as => (k, a) :: enumFromN (k + 1) as

/-- Fuel-driven worker for `chunkList`; the fuel is the list length, which
always suffices because every step consumes at least the head. -/
def chunkGo (g : Nat) : Nat → List α → List (List α)
  | 0, _ => []
  | _ + 1, [] => []
  | fuel + 1, a :: rest => (a :: rest.take (g - 1)) :: chunkGo g fuel (rest.drop (g - 1))

/-- Embedding of lodash `_.chunk(l, g)`: splits `l` into consecutive groups
of `g` (the last group may be shorter); `_.chunk(l, 0)` returns `[]`. -/
def chunkList (g : Nat) (l : List α) : List (List α) :=
  if g = 0 then [] else chunkGo g l.length l

/-- The stability relation: positions earlier in the stably-descending-sorted
list have a strictly larger key, or an equal key and a smaller original
position. -/
def lexDescRel (key : α → Int) (p q : Nat × α) : Prop :=
  key q.2 < key p.2 ∨ (key p.2 = key q.2 ∧ p.1 < q.1)

/-- Oracle response for one ranking group: `none` models a thrown LLM call
or an unsplittable body, `some toks` the comma-split tokens after
`parseInt(tok, 10) - 1`, where a token-level `none` models `NaN`. -/
abbrev RankResponse := Option (List (Option Int))

/-- Embedding of `articlesWithScores.find(a => a.url === url).tournamentScore
+= pts` in `runFinalTournament`: add `p` to the tournament score of the first
state entry with the given url (no-op when the url is absent, matching the
`if (targetArticle)` guard). -/
def addTournamentScore (u : String) (p : Int) : List FArticle → List FArticle
  | [] => []
  | a :: rest =>
    if a.url = u then { a with tournamentScore := a.tournamentScore + p } :: rest
    else a :: addTournamentScore u p rest

/-- Embedding of the `rankedIndices.forEach((originalIndex, rank) => ...)`
loop of `runFinalTournament`: out-of-range indices and ranks beyond the
points table are skipped (`if (articleInGroup && tournamentPoints[rank] !==
undefined)`). -/
def applyRankedT (group : List FArticle) (pts : List Int) (idxs : List Int)
    (state : List FArticle) : List FArticle :=
  (enumFromN 0 idxs).foldl (fun st p =>
    if p.2 < 0 then st
    else
      match group[p.2.toNat]?, pts[p.1]? with
      | some art, some pt => addTournamentScore art.url pt st
      | _, _ => st) state

/-- Validation applied by `runFinalTournament` before any score changes: the
parsed index list must have exactly the group's length and contain no NaN;
otherwise the group's ranking throws and is skipped.  `true` means the
response is unusable. -/
def responseInvalid (resp : RankResponse) (gsize : Nat) : Bool :=
  match resp with
  | none => true
  | some toks => !(toks.length = gsize && toks.all (fun t => t.isSome))

/-- Embedding of one group's handling inside a round of
`runFinalTournament`: groups of fewer than two members return immediately; a
thrown call or invalid parsed response leaves the state untouched. -/
def applyGroupRanking (pts : List Int) (state : List FArticle)
    (group : List FArticle) (resp : RankResponse) : List FArticle :=
  if group.length < 2 then state
  else
    match resp with
    | none => state
    | some toks =>
      if toks.length = group.length && toks.all (fun t => t.isSome) then
        applyRankedT group pts (toks.filterMap id) state
      else state

/-- Grouping used by every round of `runFinalTournament`: chunk the state
sorted by current cumulative tournament score, descending. -/
def tournamentRoundGroups (g : Nat) (state : List FArticle) : List (List FArticle) :=
  chunkList g (sortDescBy (fun a => a.tournamentScore) state)

/-- Apply a round's per-group oracle outcomes to the score state, group by
group (score accumulation is per-url and commutative, so the concurrent
completion order of the source collapses to this fold). -/
def roundApplyPairs (pts : List Int) (state : List FArticle)
    (pairs : List (List FArticle × RankResponse)) : List FArticle :=
  pairs.foldl (fun st p => applyGroupRanking pts st p.1 p.2) state

/-- One round of `runFinalTournament`: regroup by current score, then apply
every group's response. -/
def tournamentRound (g : Nat) (pts : List Int) (oracleR : Nat → RankResponse)
    (state : List FArticle) : List FArticle :=
  roundApplyPairs pts state
    ((enumFromN 0 (tournamentRoundGroups g state)).map (fun p => (p.2, oracleR p.1)))

/-- The `for (let round = 1; round <= tournamentRounds; round++)` loop. -/
def runRounds (g : Nat) (pts : List Int) (oracle : Nat → Nat → RankResponse) :
    Nat → Nat → List FArticle → List FArticle
  | 0, _, st => st
  | n + 1, r, st => runRounds g pts oracle n (r + 1) (tournamentRound g pts (oracle r) st)

/-- Embedding of `runFinalTournament` (modules/ranker.js): initialise every
article's tournament score to zero, run the configured number of
score-regrouped rounds against the oracle, sort by final score descending
and assign dense ranks `1..N`. -/
def runFinalTournament (rounds g : Nat) (pts : List Int)
    (oracle : Nat → Nat → RankResponse) (articles : List FArticle) : List RankedArticle :=
  let init := articles.map (fun a => { a with tournamentScore := 0 })
  let final := runRounds g pts oracle rounds 1 init
  let sorted := sortDescBy (fun a => a.tournamentScore) final
  (enumFromN 0 sorted).map (fun p => { toFArticle := p.2, rank := p.1 + 1 })

/-- Per-url score addition for qualification / category ranking
(`targetArticle.score += points[rank]`, no-op when the url is absent). -/
def addScore (u : String) (p : Int) : List Article → List Article
  | [] => []
  | a :: rest =>
    if a.url = u then { a with score := a.score + p } :: rest
    else a :: addScore u p rest

/-- The `rankedIndices.forEach` loop of the qualification and category
tournaments in modules/crawler.js. -/
def applyRankedQ (group : List Article) (pts : List Int) (idxs : List Int)
    (state : List Article) : List Article :=
  (enumFromN 0 idxs).foldl (fun st p =>
    if p.2 < 0 then st
    else
      match group[p.2.toNat]?, pts[p.1]? with
      | some art, some pt => addScore art.url pt st
      | _, _ => st) state

/-- One attempt of the qualification retry loop is unusable when the call
threw or the NaN-filtered parsed index list does not match the group size. -/
def qualAttemptFails (att : RankResponse) (gsize : Nat) : Bool :=
  match att with
  | none => true
  | some toks => !((toks.filterMap id).length = gsize)

/-- The qualification retry loop of `discoverAndRankContenders`
(modules/crawler.js): re-ask until the NaN-filtered parsed list has exactly
the group's length; a thrown call escapes the loop immediately and skips the
group; exhausting all attempts also skips the group. -/
def qualRetryResult (gsize : Nat) : List RankResponse → Option (List Int)
  | [] => none
  | none :: _ => none
  | some toks :: rest =>
    if (toks.filterMap id).length = gsize then some (toks.filterMap id)
    else qualRetryResult gsize rest

/-- One qualification group: apply the ranked points only when some retry
attempt produced a validated index list. -/
def qualApplyGroup (state : List Article) (group : List Article) (pts : List Int)
    (attempts : List RankResponse) : List Article :=
  match qualRetryResult group.length attempts with
  | none => state
  | some idxs => applyRankedQ group pts idxs state

/-- Participant order used by round `round` of the qualification tournament
(`round === 1 ? _.shuffle(articleLinks) : _.orderBy(articleLinks, ['score'],
['desc'])`); the random shuffle outcome is the parameter `shuffled`. -/
def qualRoundOrder (round : Nat) (shuffled : List Article) (state : List Article) : List Article :=
  if round = 1 then shuffled else sortDescBy (fun a => a.score) state

/-- One group of `rankAndSelectCategories` (modules/crawler.js): a singleton
group receives the fixed second-place participation score
`categoryRankingPoints[1]` (when the points table has one); larger groups
are ranked by the oracle, with a length-mismatched response skipping the
group. -/
def categoryApplyGroup (state : List Article) (group : List Article) (pts : List Int)
    (resp : RankResponse) : List Article :=
  if group.length < 2 then
    match group, pts with
    | [c], _ :: p1 :: _ => addScore c.url p1 state
    | _, _ => state
  else
    match resp with
    | none => state
    | some toks =>
      if (toks.filterMap id).length = group.length then
        applyRankedQ group pts (toks.filterMap id) state
      else state

/-- The tournament-score lookup used to state round-failure isolation:
the score the first state entry with url `u` currently holds. -/
def tournamentScoreOf (state : List FArticle) (u : String) : Option Int :=
  (state.find? (fun a => a.url = u)).map (fun a => a.tournamentScore)

/-- Concrete tournament article used by witness instantiations. -/
def wF (i : Nat) : FArticle :=
  { url := "u" ++ toString i, title := "t" ++ toString i, score := 0, tournamentScore := 0 }

/-- Concrete qualification article used by witness instantiations. -/
def wA (i : Nat) : Article :=
  { url := "q" ++ toString i, title := "s" ++ toString i, score := 0 }

/-- Output item of the iterative grouper (part_002): the representative
article spread together with the ordered member url and title lists. -/
structure GArticle extends Article where
  clusterUrls : List String
  clusterTitles : List String
deriving DecidableEq, Repr

/-- Output item of the graph-based grouper and modules/grouper.js (these
variants also record the member count). -/
structure ClusterItem extends Article where
  clusterSize : Nat
  clusterUrls : List String
  clusterTitles : List String
deriving DecidableEq, Repr

/-- Verification outcome for one cluster in `verifyCluster` (part_002):
`err` models a thrown theme-generation or consistency call, `noneAnswer`
the literal response "none" (after trim / lowercase), `indices toks` the
comma-split tokens after `parseInt(tok, 10) - 1` with `none` for NaN. -/
inductive VerifyResp where
  | err : VerifyResp
  | noneAnswer : VerifyResp
  | indices : List (Option Int) → VerifyResp
deriving DecidableEq, Repr

/-- The outlier-index filter of `verifyCluster`:
`.filter(n => !isNaN(n) && n >= 0 && n < cluster.length)`. -/
def validOutlierIndices (toks : List (Option Int)) (len : Nat) : List Int :=
  toks.filterMap (fun t =>
    match t with
    | none => none
    | some v => if 0 ≤ v ∧ v < (len : Int) then some v else none)

/-- Embedding of `verifyCluster` (part_002): clusters of at most one member
are returned unchanged without any oracle call; a thrown call, a "none"
answer or a response without valid in-range indices leaves the cluster
whole; otherwise the members at the flagged positions are ejected as
outliers. -/
def verifyCluster (resp : VerifyResp) (cluster : List Article) :
    List Article × List Article :=
  if cluster.length ≤ 1 then (cluster, [])
  else
    match resp with
    | .err => (cluster, [])
    | .noneAnswer => (cluster, [])
    | .indices toks =>
      if validOutlierIndices toks cluster.length = [] then (cluster, [])
      else
        ((if 0 < ((enumFromN 0 cluster).filterMap (fun p =>
            if (p.1 : Int) ∈ validOutlierIndices toks cluster.length then none
            else some p.2)).length
          then (enumFromN 0 cluster).filterMap (fun p =>
            if (p.1 : Int) ∈ validOutlierIndices toks cluster.length then none
            else some p.2)
          else []),
          (enumFromN 0 cluster).filterMap (fun p =>
            if (p.1 : Int) ∈ validOutlierIndices toks cluster.length then some p.2
            else none))

/-- A parsed entry of a phase-one grouping response: the candidate index
parsed from the key `A<i>` (`none` for NaN) together with the JSON value
`clusterIndex` (a non-numeric JSON value behaves like a non-positive
number: it fails the `clusterIndex > 0` test and opens a new cluster). -/
abbrev GroupEntry := Option Int × Int

/-- Grouping oracle of the phase-one screening: given the current cluster
representatives and the batch, `none` models a thrown call or a body with
no parsable JSON object, `some entries` the entries of the parsed object in
order (`robustParseGroupingResponse` merely warns on a count mismatch, so
omitted or extra candidates flow through). -/
abbrev GroupingOracle := List (Option Article) → List Article → Option (List GroupEntry)

/-- Append `a` to the cluster at position `i`
(`initialClusters[targetIndex].push(article)`). -/
def pushAt : List (List Article) → Nat → Article → List (List Article)
  | [], _, _ => []
  | c :: cs, 0, a => (c ++ [a]) :: cs
  | c :: cs, i + 1, a => c :: pushAt cs i a

/-- Apply one entry of a phase-one grouping response: an unparsable or
out-of-range candidate id is skipped (`if (!article) return`); a
`clusterIndex > 0` pointing at an existing cluster appends to it; anything
else opens a new singleton cluster. -/
def applyGroupEntry (batch : List Article) (clusters : List (List Article))
    (e : GroupEntry) : List (List Article) :=
  match e.1 with
  | none => clusters
  | some ci =>
    if ci < 0 then clusters
    else
      match batch[ci.toNat]? with
      | none => clusters
      | some article =>
        if 0 < e.2 ∧ (e.2 - 1).toNat < clusters.length then
          pushAt clusters (e.2 - 1).toNat article
        else clusters ++ [[article]]

/-- The representatives recomputed before each phase-one batch:
`initialClusters.map(c => _.orderBy(c, ['score'], ['desc'])[0])`. -/
def clusterReps (clusters : List (List Article)) : List (Option Article) :=
  clusters.map (fun c => (sortDescBy (fun a => a.score) c).head?)

/-- One batch of the phase-one screening loop of `runClusteringCycle`: when
no clusters exist yet, the first batch member seeds a singleton cluster and,
if the batch held only that member, the loop continues without consulting
the oracle; otherwise the oracle groups the (remaining) batch against the
representatives, a thrown or unparsable response degrading every batch
member into its own singleton cluster. -/
def phase1Step (gO : GroupingOracle) (batch0 : List Article)
    (clusters : List (List Article)) : List (List Article) :=
  if clusters.length = 0 then
    match batch0 with
    | [] => clusters
    | a :: batchRest =>
      if batchRest = [] then [[a]]
      else
        match gO (clusterReps [[a]]) batchRest with
        | none => [[a]] ++ batchRest.map (fun x => [x])
        | some entries => entries.foldl (applyGroupEntry batchRest) [[a]]
  else
    match gO (clusterReps clusters) batch0 with
    | none => clusters ++ batch0.map (fun x => [x])
    | some entries => entries.foldl (applyGroupEntry batch0) clusters

/-- The phase-one batching loop (`while (remainingToBatch.length > 0)`);
the fuel is the number of remaining articles, which suffices because every
pass consumes at least the head (the source would loop forever on
`groupingBatchSize = 0`; all call sites use 25). -/
def phase1Go (b : Nat) (gO : GroupingOracle) :
    Nat → List Article → List (List Article) → List (List Article)
  | 0, _, clusters => clusters
  | _ + 1, [], clusters => clusters
  | fuel + 1, a :: rest, clusters =>
    phase1Go b gO fuel (rest.drop (b - 1))
      (phase1Step gO (a :: rest.take (b - 1)) clusters)

/-- Phase one of `runClusteringCycle` on a full article list. -/
def phase1 (b : Nat) (gO : GroupingOracle) (articles : List Article) :
    List (List Article) :=
  phase1Go b gO articles.length articles []

/-- Per-cluster verification oracle for one cycle. -/
abbrev VerifyOracle := List Article → VerifyResp

/-- Phase two of `runClusteringCycle`: verify every initial cluster,
keeping the non-empty consistent parts and collecting the outliers (the
source pushes in completion order; membership is order-independent, so the
sequential order is used). -/
def phase2 (vO : VerifyOracle) : List (List Article) → List (List Article) × List Article
  | [] => ([], [])
  | c :: cs =>
    ((if 0 < (verifyCluster (vO c) c).1.length then [(verifyCluster (vO c) c).1] else [])
        ++ (phase2 vO cs).1,
      (verifyCluster (vO c) c).2 ++ (phase2 vO cs).2)

/-- Embedding of `runClusteringCycle` (part_002): phase-one screening into
initial clusters followed by the verification pass, returning the finalized
clusters and the outliers for the next cycle. -/
def runClusteringCycle (b : Nat) (gO : GroupingOracle) (vO : VerifyOracle)
    (articles : List Article) : List (List Article) × List Article :=
  phase2 vO (phase1 b gO articles)

/-- The `while (articlesToProcess.length > 0 && cycleNum <= MAX_CYCLES)`
loop of the iterative `groupAndDeduplicateArticles`, plus the post-loop
degradation of still-unresolved articles into singleton clusters; `budget`
is the number of admissible cycles left (`MAX_CYCLES + 1 - cycleNum`) and
`cyc` the source's `cycleNum`. -/
def gadLoop (b : Nat) (gO : Nat → GroupingOracle) (vO : Nat → VerifyOracle) :
    Nat → Nat → List Article → List (List Article) → List (List Article)
  | _, _, [], acc => acc
  | 0, cyc, a :: rest, acc =>
    acc ++ (if 5 < cyc then (a :: rest).map (fun x => [x]) else [])
  | budget + 1, cyc, a :: rest, acc =>
    gadLoop b gO vO budget (cyc + 1)
      (runClusteringCycle b (gO cyc) (vO cyc) (a :: rest)).2
      (acc ++ (runClusteringCycle b (gO cyc) (vO cyc) (a :: rest)).1)

/-- Cluster formatting of the iterative grouper: the representative is the
first member of the score-descending stable sort, carrying the ordered
member url and title lists (`none` only for an empty member list, which
never occurs). -/
def formatClusterIter (group : List Article) : Option GArticle :=
  match sortDescBy (fun a => a.score) group with
  | [] => none
  | rep :: _ =>
    some { toArticle := rep, clusterUrls := group.map (fun a => a.url),
           clusterTitles := group.map (fun a => a.title) }

/-- Embedding of the iterative `groupAndDeduplicateArticles` (part_002):
empty input returns immediately; otherwise up to `MAX_CYCLES = 5`
cluster-and-verify cycles run, articles still unresolved become singleton
clusters, every final cluster elects its representative and the
representatives are sorted by score descending. -/
def groupAndDeduplicateArticles (b : Nat) (gO : Nat → GroupingOracle)
    (vO : Nat → VerifyOracle) (articles : List Article) : List GArticle :=
  if articles.length = 0 then []
  else
    sortDescBy (fun a => a.score)
      ((gadLoop b gO vO 5 1 articles []).filterMap formatClusterIter)

/-- Cluster formatting of the graph-based grouper (part_002 phase three)
and of modules/grouper.js: representative plus member count and the ordered
member url/title lists. -/
def formatCluster (members : List Article) : Option ClusterItem :=
  match sortDescBy (fun a => a.score) members with
  | [] => none
  | rep :: _ =>
    some { toArticle := rep, clusterSize := members.length,
           clusterUrls := members.map (fun a => a.url),
           clusterTitles := members.map (fun a => a.title) }

/-- Total member count across a grouper output (used to state item
conservation). -/
def totalClusterMembers (out : List GArticle) : Nat :=
  (out.map (fun g => g.clusterUrls.length)).sum

/-- JavaScript whitespace as matched by `\s` (the ASCII set plus the
NBSP/BOM characters that can occur in LLM output). -/
def isJsWs (c : Char) : Bool :=
  c = ' ' || c = '\t' || c = '\n' || c = '\r' || c = '\x0b' || c = '\x0c' ||
    c = '\u00A0' || c = '\uFEFF'

/-- After a comma, try to match the regex tail `\s*([\x7d\]])`: consume
whitespace and return the closing brace or bracket together with the
remainder. -/
def matchCloser : List Char → Option (Char × List Char)
  | [] => none
  | c :: rest =>
    if isJsWs c then matchCloser rest
    else if c = '\x7d' || c = ']' then some (c, rest)
    else none

/-- Worker for `fixTrailingCommas`; the fuel is the input length, which
suffices because every step consumes at least one character and a
replacement never lengthens the remainder. -/
def fixTrailingGo : Nat → List Char → List Char
  | 0, l => l
  | _ + 1, [] => []
  | fuel + 1, c :: rest =>
    if c = ',' then
      match matchCloser rest with
      | some (cl, rest') => cl :: fixTrailingGo fuel rest'
      | none => c :: fixTrailingGo fuel rest
    else c :: fixTrailingGo fuel rest

/-- Embedding of the best-effort repair
`.replace(/,\s*([\x7d\]])/g, '$1')` of `robustJsonParse`: delete every
comma standing (up to whitespace) directly before a closing brace or
bracket, scanning resuming after each replacement. -/
def fixTrailingCommas (l : List Char) : List Char :=
  fixTrailingGo l.length l

/-- The prefix of `l` up to and including the last occurrence of `ch` (the
greedy `[\s\S]*` of the extraction regex runs to the last closer). -/
def takeUpToLast (ch : Char) (l : List Char) : List Char :=
  (l.reverse.dropWhile (fun c => c ≠ ch)).reverse

/-- Embedding of `responseText.match(/\x7b[\s\S]*\x7d|\[[\s\S]*\]/)`
(braces escaped here): scan left to right for the first position where a
block can match — an opening brace with some closing brace later, or an
opening bracket with some closing bracket later — and return the block
running to the last corresponding closer; `none` when no position
matches. -/
def findJsonBlock : List Char → Option (List Char)
  | [] => none
  | c :: rest =>
    if c = '\x7b' && rest.contains '\x7d' then some (c :: takeUpToLast '\x7d' rest)
    else if c = '[' && rest.contains ']' then some (c :: takeUpToLast ']' rest)
    else findJsonBlock rest

/-- Embedding of `robustJsonParse` (modules/grouper.js), parametric in the
external `JSON.parse` — `parse b = none` models a parse exception.  It
extracts the first regex-matched block, parses it, on failure repairs
trailing commas and parses once more; an overall `none` models the function
throwing. -/
def robustJsonParse {J : Type _} (parse : List Char → Option J) (s : List Char) : Option J :=
  match findJsonBlock s with
  | none => none
  | some block =>
    match parse block with
    | some v => some v
    | none => parse (fixTrailingCommas block)

/-- Adjacency built by `findConnectedComponents`: each in-bounds edge
`[u, v]` pushes `v` onto `adj[u]` and then `u` onto `adj[v]` (so a self
loop pushes twice); out-of-bounds edges are ignored. -/
def buildAdj (n : Nat) (edges : List (Nat × Nat)) : Nat → List Nat :=
  edges.foldl (fun adj e =>
    if e.1 < n ∧ e.2 < n then
      fun w =>
        let a1 := if w = e.1 then adj w ++ [e.2] else adj w
        if w = e.2 then a1 ++ [e.1] else a1
    else adj) (fun _ => [])

/-- The neighbour mark-and-enqueue loop of the BFS:
`for (v of adj[u]) if (!visited[v]) { visited[v] = true; queue.push(v) }`,
returning the updated visited set and queue. -/
def enqStep : List Nat → Finset Nat → List Nat → Finset Nat × List Nat
  | [], visited, queue => (visited, queue)
  | v :: vs, visited, queue =>
    if v ∈ visited then enqStep vs visited queue
    else enqStep vs (insert v visited) (queue ++ [v])

/-- The BFS queue loop of `findConnectedComponents`, returning the cluster
(in dequeue order) and the final visited set.  The fuel bounds the number
of dequeues: every dequeued node was enqueued exactly once while being
freshly marked, so `n + 1` dequeues always suffice (proved in
`bfsAux_spec`'s fuel accounting). -/
def bfsAux (adj : Nat → List Nat) :
    Nat → List Nat → Finset Nat → List Nat → List Nat × Finset Nat
  | _, [], visited, acc => (acc.reverse, visited)
  | 0, _ :: _, visited, acc => (acc.reverse, visited)
  | fuel + 1, u :: rest, visited, acc =>
    bfsAux adj fuel (enqStep (adj u) visited rest).2 (enqStep (adj u) visited rest).1
      (u :: acc)

/-- One iteration of the root scan of `findConnectedComponents`: an
unvisited node starts a BFS whose traversal becomes the next cluster. -/
def fccStep (adj : Nat → List Nat) (n : Nat) (st : Finset Nat × List (List Nat))
    (i : Nat) : Finset Nat × List (List Nat) :=
  if i ∈ st.1 then st
  else
    ((bfsAux adj (n + 1) [i] (insert i st.1) []).2,
      st.2 ++ [(bfsAux adj (n + 1) [i] (insert i st.1) []).1])

/-- Embedding of `findConnectedComponents` (part_002): build the adjacency
lists from the edge list, then BFS from each yet-unvisited node `0..n-1`
in order, each traversal yielding one cluster. -/
def findConnectedComponents (n : Nat) (edges : List (Nat × Nat)) : List (List Nat) :=
  if n = 0 then []
  else ((List.range n).foldl (fccStep (buildAdj n edges) n) (∅, [])).2

/-- The undirected, bounds-checked edge relation the Relation Graph
realises: the edge list relates `u` and `v` (in either orientation) and
both endpoints are in range. -/
def edgeConnects (edges : List (Nat × Nat)) (n : Nat) (u v : Nat) : Prop :=
  ((u, v) ∈ edges ∨ (v, u) ∈ edges) ∧ u < n ∧ v < n

/-- Reachability along the adjacency lists (the reflexive-transitive
closure of the neighbour relation): the connectivity the BFS computes. -/
def adjReach (adj : Nat → List Nat) : Nat → Nat → Prop :=
  Relation.ReflTransGen (fun a b => b ∈ adj a)

section SortLemmas

variable {α : Type _} (key : α → Int)

theorem insertDesc_perm (a : α) (l : List α) : (insertDesc key a l).Perm (a :: l) := by
  induction l with
  | nil => simp [insertDesc]
  | cons b bs ih =>
    by_cases h : key b < key a
    · simp [insertDesc, h]
    · simp only [insertDesc, if_neg h]
      exact (ih.cons b).trans (List.Perm.swap a b bs)

theorem sortDescBy_perm (l : List α) : (sortDescBy key l).Perm l := by
  suffices h : ∀ (l acc : List α), (l.foldl (fun acc a => insertDesc key a acc) acc).Perm (l ++ acc) by
    simpa using h l []
  intro l
  induction l with
  | nil => intro acc; simp
  | cons a as ih =>
    intro acc
    refine (ih (insertDesc key a acc)).trans ?_
    refine (List.Perm.append_left as (insertDesc_perm key a acc)).trans ?_
    exact List.perm_middle

theorem mem_insertDesc {a x : α} {l : List α} (hx : x ∈ insertDesc key a l) :
    x = a ∨ x ∈ l := by
  have := (insertDesc_perm key a l).mem_iff.mp hx
  simpa using this

theorem insertDesc_sorted {l : List α}
    (hl : l.Pairwise (fun x y => key y ≤ key x)) (a : α) :
    (insertDesc key a l).Pairwise (fun x y => key y ≤ key x) := by
  induction l with
  | nil => simp [insertDesc]
  | cons b bs ih =>
    rcases List.pairwise_cons.mp hl with ⟨hb, hbs⟩
    by_cases h : key b < key a
    · rw [insertDesc, if_pos h]
      refine List.pairwise_cons.mpr ⟨?_, hl⟩
      intro y hy
      rcases List.mem_cons.mp hy with rfl | hy
      · exact le_of_lt h
      · exact le_trans (hb y hy) (le_of_lt h)
    · rw [insertDesc, if_neg h]
      refine List.pairwise_cons.mpr ⟨?_, ih hbs⟩
      intro y hy
      rcases mem_insertDesc key hy with rfl | hy
      · exact le_of_not_lt h
      · exact hb y hy

theorem sortDescBy_sorted (l : List α) :
    (sortDescBy key l).Pairwise (fun x y => key y ≤ key x) := by
  suffices h : ∀ (l acc : List α), acc.Pairwise (fun x y => key y ≤ key x) →
      (l.foldl (fun acc a => insertDesc key a acc) acc).Pairwise (fun x y => key y ≤ key x) by
    exact h l [] (by simp)
  intro l
  induction l with
  | nil => intro acc hacc; simpa using hacc
  | cons a as ih =>
    intro acc hacc
    exact ih _ (insertDesc_sorted key hacc a)

theorem sortDescBy_length (l : List α) : (sortDescBy key l).length = l.length :=
  (sortDescBy_perm key l).length_eq

theorem insertDesc_map {β : Type _} (keyB : β → Int) (f : α → β)
    (hkey : ∀ a, keyB (f a) = key a) (a : α) (l : List α) :
    (insertDesc key a l).map f = insertDesc keyB (f a) (l.map f) := by
  induction l with
  | nil => simp [insertDesc]
  | cons b bs ih =>
    simp only [List.map_cons, insertDesc]
    by_cases h : key b < key a
    · rw [if_pos h, if_pos (by rw [hkey, hkey]; exact h)]
      simp
    · rw [if_neg h, if_neg (by rw [hkey, hkey]; exact h)]
      simp [ih]

theorem sortDescBy_map {β : Type _} (keyB : β → Int) (f : α → β)
    (hkey : ∀ a, keyB (f a) = key a) (l : List α) :
    (sortDescBy key l).map f = sortDescBy keyB (l.map f) := by
  suffices h : ∀ (l acc : List α),
      (l.foldl (fun acc a => insertDesc key a acc) acc).map f
        = (l.map f).foldl (fun acc b => insertDesc keyB b acc) (acc.map f) by
    exact h l []
  intro l
  induction l with
  | nil => intro acc; simp
  | cons a as ih =>
    intro acc
    simp only [List.foldl_cons, List.map_cons]
    rw [ih, insertDesc_map key keyB f hkey]

end SortLemmas

section EnumLemmas

variable {α : Type _}

theorem enumFromN_map_snd (k : Nat) (l : List α) :
    (enumFromN k l).map Prod.snd = l := by
  induction l generalizing k with
  | nil => simp [enumFromN]
  | cons a as ih => simp [enumFromN, ih]

theorem enumFromN_length (k : Nat) (l : List α) :
    (enumFromN k l).length = l.length := by
  induction l generalizing k with
  | nil => simp [enumFromN]
  | cons a as ih => simp [enumFromN, ih]

theorem enumFromN_fst_le {k : Nat} {l : List α} {p : Nat × α}
    (hp : p ∈ enumFromN k l) : k ≤ p.1 := by
  induction l generalizing k with
  | nil => simp [enumFromN] at hp
  | cons a as ih =>
    rcases List.mem_cons.mp hp with rfl | hp
    · exact le_refl k
    · exact le_trans (Nat.le_succ k) (ih hp)

theorem enumFromN_pairwise_fst (k : Nat) (l : List α) :
    (enumFromN k l).Pairwise (fun p q => p.1 < q.1) := by
  induction l generalizing k with
  | nil => exact List.Pairwise.nil
  | cons a as ih =>
    refine List.pairwise_cons.mpr ⟨?_, ih (k + 1)⟩
    intro q hq
    exact lt_of_lt_of_le (Nat.lt_succ_self k) (enumFromN_fst_le hq)

theorem enumFromN_mem_iff {k : Nat} {l : List α} {p : Nat × α} :
    p ∈ enumFromN k l ↔ ∃ j, ∃ hj : j < l.length, p.1 = k + j ∧ p.2 = l.get ⟨j, hj⟩ := by
  induction l generalizing k with
  | nil => simp [enumFromN]
  | cons a as ih =>
    constructor
    · intro hp
      rcases List.mem_cons.mp hp with rfl | hp
      · exact ⟨0, by simp, by simp, by simp⟩
      · rcases ih.mp hp with ⟨j, hj, h1, h2⟩
        exact ⟨j + 1, by simpa using Nat.succ_lt_succ hj, by omega, by simpa using h2⟩
    · rintro ⟨j, hj, h1, h2⟩
      match j with
      | 0 =>
        have : p = (k, a) := by
          cases p
          simp at h1 h2
          simp [h1, h2]
        rw [this]
        exact List.mem_cons_self _ _
      | j' + 1 =>
        refine List.mem_cons.mpr (Or.inr (ih.mpr ⟨j', by simpa using Nat.lt_of_succ_lt_succ hj, by omega, by simpa using h2⟩))

theorem enumFromN_map_fst_add_one (k : Nat) (l : List α) :
    (enumFromN k l).map (fun p => p.1 + 1) = List.range' (k + 1) l.length := by
  induction l generalizing k with
  | nil => simp [enumFromN]
  | cons a as ih => simp [enumFromN, List.range'_succ, ih]

end EnumLemmas

section StabilityLemmas

variable {α : Type _} (key : α → Int)

theorem insertDesc_lex {p : Nat × α} {acc : List (Nat × α)}
    (hacc : acc.Pairwise (lexDescRel key))
    (hidx : ∀ q ∈ acc, q.1 < p.1) :
    (insertDesc (fun r => key r.2) p acc).Pairwise (lexDescRel key) := by
  induction acc with
  | nil => simp [insertDesc]
  | cons b bs ih =>
    rcases List.pairwise_cons.mp hacc with ⟨hb, hbs⟩
    by_cases h : key b.2 < key p.2
    · rw [insertDesc, if_pos h]
      refine List.pairwise_cons.mpr ⟨?_, hacc⟩
      intro q hq
      rcases List.mem_cons.mp hq with rfl | hq
      · exact Or.inl h
      · rcases hb q hq with h' | ⟨h', _⟩
        · exact Or.inl (lt_trans h' h)
        · exact Or.inl (h' ▸ h)
    · rw [insertDesc, if_neg h]
      refine List.pairwise_cons.mpr ⟨?_, ih hbs (fun q hq => hidx q (List.mem_cons.mpr (Or.inr hq)))⟩
      intro q hq
      rcases mem_insertDesc _ hq with rfl | hq
      · rcases lt_or_eq_of_le (le_of_not_lt h) with h' | h'
        · exact Or.inl h'
        · exact Or.inr ⟨h'.symm, hidx b (List.mem_cons_self _ _)⟩
      · exact hb q hq

theorem sortDescBy_pairwise_lex (es : List (Nat × α))
    (hes : es.Pairwise (fun p q => p.1 < q.1)) :
    (sortDescBy (fun r => key r.2) es).Pairwise (lexDescRel key) := by
  suffices h : ∀ (es acc : List (Nat × α)), acc.Pairwise (lexDescRel key) →
      (∀ p ∈ acc, ∀ q ∈ es, p.1 < q.1) →
      es.Pairwise (fun p q => p.1 < q.1) →
      (es.foldl (fun acc a => insertDesc (fun r => key r.2) a acc) acc).Pairwise (lexDescRel key) by
    exact h es [] (by simp) (by simp) hes
  intro es
  induction es with
  | nil => intro acc hacc _ _; simpa using hacc
  | cons p es' ih =>
    intro acc hacc hcross hes
    rcases List.pairwise_cons.mp hes with ⟨hp, hes'⟩
    simp only [List.foldl_cons]
    refine ih _ ?_ ?_ hes'
    · exact insertDesc_lex key hacc (fun q hq => hcross q hq p (List.mem_cons_self _ _))
    · intro r hr q hq
      rcases mem_insertDesc _ hr with rfl | hr
      · exact hp q hq
      · exact hcross r hr q (List.mem_cons.mpr (Or.inr hq))

/-- The stable descending sort of a list equals the index-erased stable sort
of its enumeration, which is pairwise `lexDescRel`: this is the formal
statement that lodash `orderBy` sorts descending with ties broken by
original position. -/
theorem sortDescBy_stable_characterization (l : List α) :
    ∃ es : List (Nat × α),
      sortDescBy key l = es.map Prod.snd
      ∧ es.Perm (enumFromN 0 l)
      ∧ es.Pairwise (lexDescRel key) := by
  refine ⟨sortDescBy (fun r => key r.2) (enumFromN 0 l), ?_, ?_, ?_⟩
  · rw [sortDescBy_map (fun r => key r.2) key Prod.snd (fun _ => rfl) (enumFromN 0 l),
      enumFromN_map_snd]
  · exact sortDescBy_perm _ _
  · exact sortDescBy_pairwise_lex key _ (enumFromN_pairwise_fst 0 l)

end StabilityLemmas

section ChunkLemmas

variable {α : Type _}

theorem chunkGo_flatten {g : Nat} :
    ∀ (fuel : Nat) (l : List α), l.length ≤ fuel → (chunkGo g fuel l).flatten = l := by
  intro fuel
  induction fuel with
  | zero =>
    intro l hl
    have : l = [] := List.eq_nil_of_length_eq_zero (Nat.le_zero.mp hl)
    simp [this, chunkGo]
  | succ fuel ih =>
    intro l hl
    match l with
    | [] => simp [chunkGo]
    | a :: rest =>
      simp only [chunkGo, List.flatten_cons]
      rw [ih (rest.drop (g - 1)) ?_]
      · simp [List.take_append_drop]
      · calc (rest.drop (g - 1)).length ≤ rest.length := by simp [List.length_drop]
          _ ≤ fuel := by simpa using Nat.le_of_succ_le_succ hl

theorem chunkList_flatten {g : Nat} (hg : 0 < g) (l : List α) :
    (chunkList g l).flatten = l := by
  rw [chunkList, if_neg (Nat.pos_iff_ne_zero.mp hg)]
  exact chunkGo_flatten l.length l (le_refl _)

end ChunkLemmas

section FoldInvariant

/-- A fold whose step preserves an observation `obs` preserves it overall. -/
theorem foldl_fix {α β γ : Type _} (f : α → β → α) (obs : α → γ)
    (h : ∀ st x, obs (f st x) = obs st) :
    ∀ (l : List β) (st : α), obs (l.foldl f st) = obs st := by
  intro l
  induction l with
  | nil => intro st; rfl
  | cons x xs ih => intro st; rw [List.foldl_cons, ih, h]

end FoldInvariant

section EnumPairwise

variable {α : Type _}

theorem enumFromN_mem_snd {k : Nat} {l : List α} {p : Nat × α}
    (hp : p ∈ enumFromN k l) : p.2 ∈ l := by
  have := List.mem_map_of_mem Prod.snd hp
  rwa [enumFromN_map_snd] at this

theorem enumFromN_pairwise_snd {R : α → α → Prop} {l : List α}
    (hl : l.Pairwise R) (k : Nat) :
    (enumFromN k l).Pairwise (fun p q => R p.2 q.2) := by
  induction l generalizing k with
  | nil => exact List.Pairwise.nil
  | cons a as ih =>
    rcases List.pairwise_cons.mp hl with ⟨ha, has⟩
    refine List.pairwise_cons.mpr ⟨?_, ih has (k + 1)⟩
    intro q hq
    exact ha q.2 (enumFromN_mem_snd hq)

theorem enumFromN_map_comp {β : Type _} (f : α → β) (k : Nat) (l : List α) :
    (enumFromN k l).map (fun p => f p.2) = l.map f := by
  have : (enumFromN k l).map (fun p => f p.2)
      = ((enumFromN k l).map Prod.snd).map f := by
    rw [List.map_map]; rfl
  rw [this, enumFromN_map_snd]

end EnumPairwise

section TournamentInvariants

theorem addTournamentScore_base (u : String) (p : Int) (l : List FArticle) :
    (addTournamentScore u p l).map FArticle.base = l.map FArticle.base := by
  induction l with
  | nil => rfl
  | cons a rest ih =>
    by_cases h : a.url = u
    · simp [addTournamentScore, h, FArticle.base]
    · simp [addTournamentScore, h, ih]

theorem applyRankedT_base (group : List FArticle) (pts : List Int) (idxs : List Int)
    (state : List FArticle) :
    (applyRankedT group pts idxs state).map FArticle.base = state.map FArticle.base := by
  refine foldl_fix _ _ ?_ (enumFromN 0 idxs) state
  intro st x
  by_cases h : x.2 < 0
  · simp [h]
  · simp only [if_neg h]
    match group[x.2.toNat]?, pts[x.1]? with
    | some art, some pt => exact addTournamentScore_base art.url pt st
    | some art, none => rfl
    | none, some pt => rfl
    | none, none => rfl

theorem applyGroupRanking_base (pts : List Int) (state : List FArticle)
    (group : List FArticle) (resp : RankResponse) :
    (applyGroupRanking pts state group resp).map FArticle.base = state.map FArticle.base := by
  unfold applyGroupRanking
  split
  · rfl
  · split
    · rfl
    · split
      · exact applyRankedT_base group pts _ state
      · rfl

theorem roundApplyPairs_base (pts : List Int) (state : List FArticle)
    (pairs : List (List FArticle × RankResponse)) :
    (roundApplyPairs pts state pairs).map FArticle.base = state.map FArticle.base := by
  refine foldl_fix _ _ ?_ pairs state
  intro st p
  exact applyGroupRanking_base pts st p.1 p.2

theorem tournamentRound_base (g : Nat) (pts : List Int) (oracleR : Nat → RankResponse)
    (state : List FArticle) :
    (tournamentRound g pts oracleR state).map FArticle.base = state.map FArticle.base :=
  roundApplyPairs_base pts state _

theorem runRounds_base (g : Nat) (pts : List Int) (oracle : Nat → Nat → RankResponse) :
    ∀ (n r : Nat) (st : List FArticle),
      (runRounds g pts oracle n r st).map FArticle.base = st.map FArticle.base := by
  intro n
  induction n with
  | zero => intro r st; rfl
  | succ n ih =>
    intro r st
    rw [runRounds, ih, tournamentRound_base]

/-- C1: for every list of N input articles and every oracle behaviour,
`runFinalTournament` returns exactly N ranked items carrying the same
multiset of article identities (no loss, no duplication), sorted by final
cumulative tournament score descending, with ranks exactly `1..N` in output
order. -/
theorem c1_runFinalTournament_conservation_sort_denseRanks
    (rounds g : Nat) (pts : List Int) (oracle : Nat → Nat → RankResponse)
    (articles : List FArticle) :
    (runFinalTournament rounds g pts oracle articles).length = articles.length
    ∧ ((runFinalTournament rounds g pts oracle articles).map
        (fun a => a.toFArticle.base)).Perm (articles.map FArticle.base)
    ∧ (runFinalTournament rounds g pts oracle articles).Pairwise
        (fun x y => y.tournamentScore ≤ x.tournamentScore)
    ∧ (runFinalTournament rounds g pts oracle articles).map (fun a => a.rank)
        = List.range' 1 articles.length := by
  have hinit : (articles.map (fun a => { a with tournamentScore := 0 })).map FArticle.base
      = articles.map FArticle.base := by
    rw [List.map_map]; rfl
  have hfinal : (runRounds g pts oracle rounds 1
      (articles.map (fun a => { a with tournamentScore := 0 }))).map FArticle.base
      = articles.map FArticle.base := by
    rw [runRounds_base, hinit]
  have hsortp := sortDescBy_perm (fun a : FArticle => a.tournamentScore)
    (runRounds g pts oracle rounds 1 (articles.map (fun a => { a with tournamentScore := 0 })))
  have hsortlen : (sortDescBy (fun a : FArticle => a.tournamentScore)
      (runRounds g pts oracle rounds 1
        (articles.map (fun a => { a with tournamentScore := 0 })))).length
      = articles.length := by
    rw [hsortp.length_eq]
    have := congrArg List.length hfinal
    simpa using this
  refine ⟨?_, ?_, ?_, ?_⟩
  · simp only [runFinalTournament, List.length_map, enumFromN_length]
    exact hsortlen
  · simp only [runFinalTournament]
    rw [show ((enumFromN 0 (sortDescBy (fun a : FArticle => a.tournamentScore)
        (runRounds g pts oracle rounds 1
          (articles.map (fun a => { a with tournamentScore := 0 }))))).map
        (fun p => ({ toFArticle := p.2, rank := p.1 + 1 } : RankedArticle))).map
        (fun a => a.toFArticle.base)
        = (enumFromN 0 (sortDescBy (fun a : FArticle => a.tournamentScore)
        (runRounds g pts oracle rounds 1
          (articles.map (fun a => { a with tournamentScore := 0 }))))).map
          (fun p => p.2.base) from by rw [List.map_map]; rfl]
    rw [enumFromN_map_comp FArticle.base]
    rw [← hfinal]
    exact hsortp.map FArticle.base
  · simp only [runFinalTournament]
    rw [List.pairwise_map]
    exact enumFromN_pairwise_snd
      (sortDescBy_sorted (fun a : FArticle => a.tournamentScore) _) 0
  · simp only [runFinalTournament]
    rw [List.map_map]
    rw [show ((fun a : RankedArticle => a.rank) ∘
        (fun p : Nat × FArticle => ({ toFArticle := p.2, rank := p.1 + 1 } : RankedArticle)))
        = fun p : Nat × FArticle => p.1 + 1 from rfl]
    rw [enumFromN_map_fst_add_one, hsortlen]

end TournamentInvariants

section FailureIsolation

theorem applyGroupRanking_invalid {pts : List Int} {state group : List FArticle}
    {resp : RankResponse} (h : responseInvalid resp group.length = true) :
    applyGroupRanking pts state group resp = state := by
  rcases resp with _ | toks
  · unfold applyGroupRanking
    split <;> rfl
  · unfold applyGroupRanking
    split
    · rfl
    · show (if toks.length = group.length && toks.all (fun t => t.isSome) then
          applyRankedT group pts (toks.filterMap id) state else state) = state
      have hcond : ¬((toks.length = group.length && toks.all (fun t => t.isSome)) = true) := by
        intro hc
        simp only [responseInvalid] at h
        rw [hc] at h
        simp at h
      rw [if_neg hcond]

theorem tournamentScoreOf_addTournamentScore_ne {u v : String} (hne : v ≠ u) (p : Int) :
    ∀ st : List FArticle, tournamentScoreOf (addTournamentScore v p st) u = tournamentScoreOf st u := by
  intro st
  induction st with
  | nil => rfl
  | cons a rest ih =>
    by_cases ha : a.url = v
    · rw [addTournamentScore, if_pos ha]
      have hau : ¬(a.url = u) := by rw [ha]; exact hne
      simp [tournamentScoreOf, List.find?_cons, hau]
    · rw [addTournamentScore, if_neg ha]
      by_cases hau : a.url = u
      · simp [tournamentScoreOf, List.find?_cons, hau]
      · simp only [tournamentScoreOf, List.find?_cons] at ih ⊢
        simp only [hau]
        simpa using ih

theorem applyRankedT_scoreOf_notin {u : String} {group : List FArticle}
    (hu : ∀ a ∈ group, a.url ≠ u) (pts : List Int) (idxs : List Int)
    (state : List FArticle) :
    tournamentScoreOf (applyRankedT group pts idxs state) u = tournamentScoreOf state u := by
  refine foldl_fix _ (fun st => tournamentScoreOf st u) ?_ (enumFromN 0 idxs) state
  intro st x
  by_cases h : x.2 < 0
  · simp [h]
  · simp only [if_neg h]
    match hm : group[x.2.toNat]?, pts[x.1]? with
    | some art, some pt =>
      have hart : art ∈ group := List.getElem?_mem hm
      exact tournamentScoreOf_addTournamentScore_ne (hu art hart) pt st
    | some art, none => rfl
    | none, some pt => rfl
    | none, none => rfl

theorem applyGroupRanking_scoreOf_notin {u : String} {group : List FArticle}
    (hu : ∀ a ∈ group, a.url ≠ u) (pts : List Int) (state : List FArticle)
    (resp : RankResponse) :
    tournamentScoreOf (applyGroupRanking pts state group resp) u = tournamentScoreOf state u := by
  unfold applyGroupRanking
  split
  · rfl
  · split
    · rfl
    · split
      · exact applyRankedT_scoreOf_notin hu pts _ state
      · rfl

theorem roundApplyPairs_scoreOf_notin {u : String} (pts : List Int) :
    ∀ (pairs : List (List FArticle × RankResponse)) (state : List FArticle),
      (∀ p ∈ pairs, ∀ a ∈ p.1, a.url ≠ u) →
      tournamentScoreOf (roundApplyPairs pts state pairs) u = tournamentScoreOf state u := by
  intro pairs
  induction pairs with
  | nil => intro state _; rfl
  | cons p ps ih =>
    intro state hp
    rw [roundApplyPairs, List.foldl_cons]
    have h1 : tournamentScoreOf
        (List.foldl (fun st p => applyGroupRanking pts st p.1 p.2)
          (applyGroupRanking pts state p.1 p.2) ps) u
        = tournamentScoreOf (applyGroupRanking pts state p.1 p.2) u :=
      ih (applyGroupRanking pts state p.1 p.2) (fun q hq => hp q (List.mem_cons.mpr (Or.inr hq)))
    rw [h1]
    exact applyGroupRanking_scoreOf_notin (hp p (List.mem_cons_self _ _)) pts state p.2

theorem roundApplyPairs_erase_invalid (pts : List Int) (state : List FArticle)
    (pre post : List (List FArticle × RankResponse))
    (gf : List FArticle) (rf : RankResponse)
    (hfail : responseInvalid rf gf.length = true) :
    roundApplyPairs pts state (pre ++ (gf, rf) :: post)
      = roundApplyPairs pts state (pre ++ post) := by
  rw [roundApplyPairs, roundApplyPairs, List.foldl_append, List.foldl_append, List.foldl_cons]
  rw [show applyGroupRanking pts (List.foldl (fun st p => applyGroupRanking pts st p.1 p.2) state pre) gf rf
      = List.foldl (fun st p => applyGroupRanking pts st p.1 p.2) state pre from
    applyGroupRanking_invalid hfail]

theorem qualRetryResult_none {gsize : Nat} :
    ∀ attempts : List RankResponse,
      (∀ att ∈ attempts, qualAttemptFails att gsize = true) →
      qualRetryResult gsize attempts = none := by
  intro attempts
  induction attempts with
  | nil => intro _; rfl
  | cons att rest ih =>
    intro h
    rcases att with _ | toks
    · rfl
    · rw [qualRetryResult]
      have hatt := h (some toks) (List.mem_cons_self _ _)
      simp only [qualAttemptFails] at hatt
      rw [if_neg (by simpa using hatt)]
      exact ih (fun a ha => h a (List.mem_cons.mpr (Or.inr ha)))

/-- C3: a tournament or qualification group whose oracle response is
unusable after every attempt (thrown call, NaN, or a length-mismatched index
list) contributes nothing: the round result equals the round run without
that group, every member of the failed group keeps its pre-round score (the
failing group's member urls being absent from the other groups, as holds
whenever article urls are distinct), and a qualification group whose every
retry attempt fails keeps the state unchanged. -/
theorem c3_failed_group_is_isolated (pts : List Int) (state : List FArticle)
    (pre post : List (List FArticle × RankResponse))
    (gf : List FArticle) (rf : RankResponse)
    (hfail : responseInvalid rf gf.length = true)
    (hdisj : ∀ u ∈ gf.map (fun a => a.url), ∀ p ∈ pre ++ post, ∀ a ∈ p.1, a.url ≠ u)
    (qstate qgroup : List Article) (qpts : List Int)
    (attempts : List RankResponse)
    (hqfail : ∀ att ∈ attempts, qualAttemptFails att qgroup.length = true) :
    roundApplyPairs pts state (pre ++ (gf, rf) :: post)
      = roundApplyPairs pts state (pre ++ post)
    ∧ (∀ u ∈ gf.map (fun a => a.url),
        tournamentScoreOf (roundApplyPairs pts state (pre ++ (gf, rf) :: post)) u
          = tournamentScoreOf state u)
    ∧ qualApplyGroup qstate qgroup qpts attempts = qstate := by
  refine ⟨roundApplyPairs_erase_invalid pts state pre post gf rf hfail, ?_, ?_⟩
  · intro u hu
    rw [roundApplyPairs_erase_invalid pts state pre post gf rf hfail]
    exact roundApplyPairs_scoreOf_notin pts (pre ++ post) state (hdisj u hu)
  · rw [qualApplyGroup, qualRetryResult_none attempts hqfail]

end FailureIsolation

/-- Witness for C3: a concrete round in which the second group's call throws
(`none`) while the first group's response is valid, and a concrete
qualification group all of whose retry attempts fail. -/
theorem c3_failed_group_is_isolated_witness :
    responseInvalid none [wF 3, wF 4].length = true
    ∧ (roundApplyPairs [3, 1, 0] [wF 1, wF 2, wF 3, wF 4]
          ([([wF 1, wF 2], some [some 1, some 0])] ++ ([wF 3, wF 4], none) :: [])
        = roundApplyPairs [3, 1, 0] [wF 1, wF 2, wF 3, wF 4]
          ([([wF 1, wF 2], some [some 1, some 0])] ++ [])
      ∧ (∀ u ∈ [wF 3, wF 4].map (fun a => a.url),
          tournamentScoreOf (roundApplyPairs [3, 1, 0] [wF 1, wF 2, wF 3, wF 4]
            ([([wF 1, wF 2], some [some 1, some 0])] ++ ([wF 3, wF 4], none) :: [])) u
            = tournamentScoreOf [wF 1, wF 2, wF 3, wF 4] u)
      ∧ qualApplyGroup [wA 1, wA 2] [wA 1, wA 2] [5, 3] [none, some [some 0]]
          = [wA 1, wA 2]) :=
  ⟨by decide,
    c3_failed_group_is_isolated [3, 1, 0] [wF 1, wF 2, wF 3, wF 4]
      [([wF 1, wF 2], some [some 1, some 0])] [] [wF 3, wF 4] none
      (by decide) (by decide) [wA 1, wA 2] [wA 1, wA 2] [5, 3]
      [none, some [some 0]] (by decide)⟩

section SingletonRule

/-- C9 counterexample: the same singleton group, the same points table
`[5,3,2,1,0]` and the same validated response leave a finals singleton with
score 0, give a category-ranking singleton the fixed second-place score 3,
and give a qualification singleton the oracle-assigned first-place score 5 —
three different rules, so no single rule is applied consistently across the
ranking phases. -/
theorem c9_counterexample :
    applyGroupRanking [5, 3, 2, 1, 0] [wF 1] [wF 1] (some [some 0]) = [wF 1]
    ∧ (categoryApplyGroup [wA 1] [wA 1] [5, 3, 2, 1, 0] (some [some 0])).map
        (fun a => a.score) = [3]
    ∧ (qualApplyGroup [wA 1] [wA 1] [5, 3, 2, 1, 0] [some [some 0]]).map
        (fun a => a.score) = [5]
    ∧ ((3 : Int) ≠ 0 ∧ (5 : Int) ≠ 0 ∧ (5 : Int) ≠ 3) := by
  refine ⟨by decide, by decide, by decide, by decide, by decide, by decide⟩

/-- C9 amended: singleton groups are handled per phase — the final
tournament skips them entirely (zero points, any response), category ranking
adds the fixed second-place score `points[1]` whenever the points table has
at least two entries (and nothing with a shorter table), and the
qualification tournament sends the singleton to the oracle like any group,
so a validated response ranking it first awards `points[0]`. -/
theorem c9_amended (pts : List Int) (s : List FArticle) (a : FArticle)
    (r : RankResponse) (qs : List Article) (c : Article) (p0 p1 : Int)
    (ps : List Int) (cr : RankResponse) :
    applyGroupRanking pts s [a] r = s
    ∧ categoryApplyGroup qs [c] (p0 :: p1 :: ps) cr = addScore c.url p1 qs
    ∧ categoryApplyGroup qs [c] [p0] cr = qs
    ∧ categoryApplyGroup qs [c] [] cr = qs
    ∧ qualApplyGroup qs [c] (p0 :: ps) [some [some 0]] = addScore c.url p0 qs := by
  refine ⟨?_, rfl, rfl, rfl, ?_⟩
  · unfold applyGroupRanking
    rw [if_pos (by simp)]
  · rw [qualApplyGroup]
    rw [show qualRetryResult ([c] : List Article).length [some [some 0]] = some [0] from rfl]
    simp [applyRankedQ, enumFromN]

end SingletonRule

section SwissGrouping

/-- C5 counterexample: round 1 of `runFinalTournament` does not shuffle.  On
four equal-score articles its round-1 grouping is always the original-order
chunking, which differs from the grouping a shuffle outcome (here: the
reversing permutation) would produce — so round 1 of the final tournament is
not a random-shuffle partition. -/
theorem c5_counterexample :
    tournamentRoundGroups 2
        (([wF 1, wF 2, wF 3, wF 4] : List FArticle).map
          (fun a => { a with tournamentScore := 0 }))
      = [[wF 1, wF 2], [wF 3, wF 4]]
    ∧ chunkList 2 (List.reverse [wF 1, wF 2, wF 3, wF 4])
      = [[wF 4, wF 3], [wF 2, wF 1]]
    ∧ ([[wF 1, wF 2], [wF 3, wF 4]] : List (List FArticle))
      ≠ [[wF 4, wF 3], [wF 2, wF 1]] := by
  refine ⟨by decide, by decide, by decide⟩

/-- C5 amended: in the qualification tournament round 1 chunks the random
shuffle outcome into groups of size g and those groups partition the
participants; rounds two onwards (and every round of the final tournament,
including its first) chunk the participants sorted by current cumulative
score descending with ties kept in original order (the stable-sort
characterisation below), and that grouping partitions the state — so each
later round's grouping is a deterministic function of the previous round's
score list. -/
theorem c5_amended (g' : Nat) (shuffled state : List Article)
    (hshuffle : shuffled.Perm state) (fstate : List FArticle) :
    qualRoundOrder 1 shuffled state = shuffled
    ∧ (chunkList (g' + 1) shuffled).flatten = shuffled
    ∧ ((chunkList (g' + 1) shuffled).flatten).Perm state
    ∧ (∀ r, 2 ≤ r → qualRoundOrder r shuffled state
        = sortDescBy (fun a => a.score) state)
    ∧ tournamentRoundGroups (g' + 1) fstate
      = chunkList (g' + 1) (sortDescBy (fun a => a.tournamentScore) fstate)
    ∧ (∃ es : List (Nat × FArticle),
        sortDescBy (fun a => a.tournamentScore) fstate = es.map Prod.snd
        ∧ es.Perm (enumFromN 0 fstate)
        ∧ es.Pairwise (lexDescRel (fun a => a.tournamentScore)))
    ∧ ((chunkList (g' + 1) (sortDescBy (fun a => a.tournamentScore) fstate)).flatten).Perm
        fstate := by
  refine ⟨rfl, ?_, ?_, ?_, rfl, ?_, ?_⟩
  · exact chunkList_flatten (Nat.succ_pos g') shuffled
  · rw [chunkList_flatten (Nat.succ_pos g') shuffled]
    exact hshuffle
  · intro r hr
    rw [qualRoundOrder, if_neg (by omega)]
  · exact sortDescBy_stable_characterization (fun a => a.tournamentScore) fstate
  · rw [chunkList_flatten (Nat.succ_pos g')]
    exact sortDescBy_perm _ fstate

/-- Witness for the amended C5 at a concrete shuffle outcome. -/
theorem c5_amended_witness :
    ([wA 2, wA 1] : List Article).Perm [wA 1, wA 2]
    ∧ (qualRoundOrder 1 [wA 2, wA 1] [wA 1, wA 2] = [wA 2, wA 1]
      ∧ (chunkList 1 [wA 2, wA 1]).flatten = [wA 2, wA 1]
      ∧ ((chunkList 1 [wA 2, wA 1]).flatten).Perm [wA 1, wA 2]
      ∧ (∀ r, 2 ≤ r → qualRoundOrder r [wA 2, wA 1] [wA 1, wA 2]
          = sortDescBy (fun a => a.score) [wA 1, wA 2])
      ∧ tournamentRoundGroups 1 [wF 1]
        = chunkList 1 (sortDescBy (fun a => a.tournamentScore) [wF 1])
      ∧ (∃ es : List (Nat × FArticle),
          sortDescBy (fun a => a.tournamentScore) [wF 1] = es.map Prod.snd
          ∧ es.Perm (enumFromN 0 [wF 1])
          ∧ es.Pairwise (lexDescRel (fun a => a.tournamentScore)))
      ∧ ((chunkList 1 (sortDescBy (fun a => a.tournamentScore) [wF 1])).flatten).Perm
          [wF 1]) :=
  ⟨by decide, c5_amended 0 [wA 2, wA 1] [wA 1, wA 2] (by decide) [wF 1]⟩

end SwissGrouping

section ClusterVerification

/-- C10: cluster verification is atomic on failure — for any cluster (in
particular one of two or more members), a thrown theme or verification
call, the answer "none", or a response containing no valid in-range
indices returns the entire cluster unchanged as consistent with an empty
outlier list: a failed verification never splits, shrinks or empties a
cluster. -/
theorem c10_verifyCluster_atomic_on_failure (resp : VerifyResp) (cluster : List Article)
    (hsize : 2 ≤ cluster.length)
    (hfail : resp = VerifyResp.err ∨ resp = VerifyResp.noneAnswer
      ∨ ∃ toks, resp = VerifyResp.indices toks
          ∧ validOutlierIndices toks cluster.length = []) :
    verifyCluster resp cluster = (cluster, []) := by
  rcases hfail with rfl | rfl | ⟨toks, rfl, htoks⟩
  · simp [verifyCluster]
  · simp [verifyCluster]
  · simp [verifyCluster, htoks]

/-- Witness for C10 at a two-member cluster whose verification response
contains only an out-of-range index and a NaN. -/
theorem c10_verifyCluster_atomic_on_failure_witness :
    2 ≤ ([wA 1, wA 2] : List Article).length
    ∧ validOutlierIndices [some 5, none] ([wA 1, wA 2] : List Article).length = []
    ∧ verifyCluster (VerifyResp.indices [some 5, none]) [wA 1, wA 2] = ([wA 1, wA 2], []) :=
  ⟨by decide, by decide,
    c10_verifyCluster_atomic_on_failure (VerifyResp.indices [some 5, none]) [wA 1, wA 2]
      (by decide) (Or.inr (Or.inr ⟨[some 5, none], rfl, by decide⟩))⟩

/-- C2 evaluation: two articles enter `groupAndDeduplicateArticles`
(batch size 25 as configured); the first seeds the initial cluster and the
cycle-1 grouping response is the valid JSON object with no entries, which
omits the remaining candidate `A0`.  `robustParseGroupingResponse` only
warns on the count mismatch, so the omitted article is dropped: the output
holds a single cluster with one member, and the second article's url
appears in no cluster — the input count 2 is not conserved. -/
theorem c2_omitted_candidate_dropped_eval :
    ([wA 1, wA 2] : List Article).length = 2
    ∧ groupAndDeduplicateArticles 25 (fun _ _ _ => some [])
        (fun _ _ => VerifyResp.err) [wA 1, wA 2]
      = [{ toArticle := wA 1, clusterUrls := [(wA 1).url],
           clusterTitles := [(wA 1).title] }]
    ∧ totalClusterMembers (groupAndDeduplicateArticles 25 (fun _ _ _ => some [])
        (fun _ _ => VerifyResp.err) [wA 1, wA 2]) = 1
    ∧ ∀ g ∈ groupAndDeduplicateArticles 25 (fun _ _ _ => some [])
        (fun _ _ => VerifyResp.err) [wA 1, wA 2],
        (wA 2).url ∉ g.clusterUrls := by
  refine ⟨by decide, by decide, by decide, by decide⟩

/-- C8: empty input yields empty output, and a single-item input yields
exactly one cluster of size one whose representative is that item, carrying
its url and title as the member lists — for every batch size and every
oracle, the right-hand sides not mentioning the oracles at all (no oracle
call can influence the result, because none is made). -/
theorem c8_empty_and_singleton (b' : Nat) (a : Article)
    (gO : Nat → GroupingOracle) (vO : Nat → VerifyOracle) :
    groupAndDeduplicateArticles (b' + 1) gO vO [] = []
    ∧ groupAndDeduplicateArticles (b' + 1) gO vO [a]
      = [{ toArticle := a, clusterUrls := [a.url], clusterTitles := [a.title] }] := by
  constructor
  · rfl
  · simp [groupAndDeduplicateArticles, gadLoop, runClusteringCycle, phase1, phase1Go,
      phase1Step, phase2, verifyCluster, formatClusterIter, sortDescBy, insertDesc]

end ClusterVerification

section RepresentativeElection

theorem sortDescBy_head_first_max {α : Type _} (key : α → Int) (m : α) (rest : List α) :
    ∃ (i : Nat) (hi : i < (m :: rest).length),
      (sortDescBy key (m :: rest)).head? = some ((m :: rest).get ⟨i, hi⟩)
      ∧ (∀ (j : Nat) (hj : j < (m :: rest).length),
          key ((m :: rest).get ⟨j, hj⟩) ≤ key ((m :: rest).get ⟨i, hi⟩))
      ∧ (∀ (j : Nat) (hj : j < (m :: rest).length), j < i →
          key ((m :: rest).get ⟨j, hj⟩) < key ((m :: rest).get ⟨i, hi⟩)) := by
  obtain ⟨es, heq, hperm, hpair⟩ := sortDescBy_stable_characterization key (m :: rest)
  match hes : es with
  | [] =>
    exfalso
    have h1 : (sortDescBy key (m :: rest)).length = (m :: rest).length :=
      sortDescBy_length key (m :: rest)
    rw [heq] at h1
    simp at h1
  | p0 :: es' =>
    have hp0mem : p0 ∈ enumFromN 0 (m :: rest) :=
      hperm.mem_iff.mp (List.mem_cons_self _ _)
    obtain ⟨i, hi, hfst, hsnd⟩ := enumFromN_mem_iff.mp hp0mem
    rw [Nat.zero_add] at hfst
    refine ⟨i, hi, ?_, ?_, ?_⟩
    · rw [heq]
      simp only [List.map_cons, List.head?_cons, Option.some.injEq]
      rw [hsnd]
    · intro j hj
      have hqmem : ((j, (m :: rest).get ⟨j, hj⟩) : Nat × α) ∈ enumFromN 0 (m :: rest) :=
        enumFromN_mem_iff.mpr ⟨j, hj, by simp, rfl⟩
      have hqes := hperm.mem_iff.mpr hqmem
      rcases List.mem_cons.mp hqes with hq | hq
      · have h2 : (m :: rest).get ⟨j, hj⟩ = p0.2 := (congrArg Prod.snd hq.symm).symm
        rw [h2, hsnd]
      · have hrel := (List.pairwise_cons.mp hpair).1 _ hq
        rcases hrel with h | ⟨h, _⟩
        · rw [← hsnd]; exact le_of_lt h
        · rw [← hsnd]; exact le_of_eq h.symm
    · intro j hj hji
      have hqmem : ((j, (m :: rest).get ⟨j, hj⟩) : Nat × α) ∈ enumFromN 0 (m :: rest) :=
        enumFromN_mem_iff.mpr ⟨j, hj, by simp, rfl⟩
      have hqes := hperm.mem_iff.mpr hqmem
      rcases List.mem_cons.mp hqes with hq | hq
      · exfalso
        have h2 : j = p0.1 := (congrArg Prod.fst hq.symm).symm
        omega
      · have hrel := (List.pairwise_cons.mp hpair).1 _ hq
        rcases hrel with h | ⟨h, hlt'⟩
        · rw [← hsnd]; exact h
        · exfalso
          have : p0.1 < j := hlt'
          omega

/-- C6: for every non-empty cluster, `formatCluster` elects as
representative the member with the highest accumulated score with ties
broken by first-seen order (the representative is the member at a position
`i` such that every member scores at most it and every earlier member
scores strictly less), and the emitted item carries the full ordered member
url and title lists together with the member count. -/
theorem c6_representative_election (m : Article) (rest : List Article) :
    ∃ item : ClusterItem,
      formatCluster (m :: rest) = some item
      ∧ item.clusterSize = (m :: rest).length
      ∧ item.clusterUrls = (m :: rest).map (fun a => a.url)
      ∧ item.clusterTitles = (m :: rest).map (fun a => a.title)
      ∧ ∃ (i : Nat) (hi : i < (m :: rest).length),
          item.toArticle = (m :: rest).get ⟨i, hi⟩
          ∧ (∀ (j : Nat) (hj : j < (m :: rest).length),
              ((m :: rest).get ⟨j, hj⟩).score ≤ item.toArticle.score)
          ∧ (∀ (j : Nat) (hj : j < (m :: rest).length), j < i →
              ((m :: rest).get ⟨j, hj⟩).score < item.toArticle.score) := by
  obtain ⟨i, hi, hhead, hle, hlt⟩ :=
    sortDescBy_head_first_max (fun a : Article => a.score) m rest
  match hs : sortDescBy (fun a : Article => a.score) (m :: rest) with
  | [] =>
    exfalso
    rw [hs] at hhead
    simp at hhead
  | rep :: tail =>
    rw [hs] at hhead
    simp only [List.head?_cons, Option.some.injEq] at hhead
    refine ⟨{ toArticle := rep, clusterSize := (m :: rest).length,
              clusterUrls := (m :: rest).map (fun a => a.url),
              clusterTitles := (m :: rest).map (fun a => a.title) },
      ?_, rfl, rfl, rfl, i, hi, hhead, ?_, ?_⟩
    · rw [formatCluster.eq_def, hs]
    · intro j hj
      rw [hhead]
      exact hle j hj
    · intro j hj hji
      rw [hhead]
      exact hlt j hj hji

end RepresentativeElection

section RobustJsonParse

theorem dropWhile_ne_append {ch : Char} :
    ∀ (l r : List Char), (∀ c ∈ l, c ≠ ch) →
      (l ++ ch :: r).dropWhile (fun c => c ≠ ch) = ch :: r := by
  intro l
  induction l with
  | nil =>
    intro r _
    simp [List.dropWhile_cons]
  | cons c cs ih =>
    intro r h
    rw [List.cons_append, List.dropWhile_cons]
    have hc : c ≠ ch := h c (List.mem_cons_self _ _)
    rw [if_pos (by simp [hc])]
    exact ih r (fun d hd => h d (List.mem_cons.mpr (Or.inr hd)))

theorem takeUpToLast_append {ch : Char} (xs post : List Char) (hpost : ch ∉ post) :
    takeUpToLast ch (xs ++ ch :: post) = xs ++ [ch] := by
  rw [takeUpToLast]
  have h1 : (xs ++ ch :: post).reverse = post.reverse ++ ch :: xs.reverse := by
    rw [List.reverse_append, List.reverse_cons, List.append_assoc]
    simp
  have hpr : ∀ c ∈ post.reverse, c ≠ ch := by
    intro c hc hceq
    exact hpost (hceq ▸ List.mem_reverse.mp hc)
  rw [h1, dropWhile_ne_append post.reverse xs.reverse hpr]
  simp

theorem findJsonBlock_prose (pre mid post : List Char)
    (hpre : ∀ c ∈ pre, c ≠ '\x7b' ∧ c ≠ '[')
    (hpost : '\x7d' ∉ post) :
    findJsonBlock (pre ++ '\x7b' :: (mid ++ '\x7d' :: post))
      = some ('\x7b' :: (mid ++ ['\x7d'])) := by
  induction pre with
  | nil =>
    rw [List.nil_append, findJsonBlock]
    rw [if_pos (by simp)]
    rw [takeUpToLast_append mid post hpost]
  | cons c cs ih =>
    rw [List.cons_append, findJsonBlock]
    have h1 := hpre c (List.mem_cons_self _ _)
    rw [if_neg (by simp [h1.1]), if_neg (by simp [h1.2])]
    exact ih (fun d hd => hpre d (List.mem_cons.mpr (Or.inr hd)))

/-- C7: `robustJsonParse` tolerates prose around the JSON — on a body made
of shape-free prose around a brace block (no opener in the leading prose,
no stray closing brace after the block) it extracts exactly that first
block; in general, a successfully parsed extracted block is returned as-is,
a failed parse is retried once on the trailing-comma-repaired block, and
the function throws exactly when no JSON-shaped block is present or when
parsing still fails after the repair; the final conjunct shows the repair
deleting a trailing comma. -/
theorem c7_robustJsonParse_contract {J : Type _} (parse : List Char → Option J)
    (pre mid post s : List Char)
    (hpre : ∀ c ∈ pre, c ≠ '\x7b' ∧ c ≠ '[')
    (hpost : '\x7d' ∉ post) :
    robustJsonParse parse (pre ++ '\x7b' :: (mid ++ '\x7d' :: post))
      = (match parse ('\x7b' :: (mid ++ ['\x7d'])) with
         | some v => some v
         | none => parse (fixTrailingCommas ('\x7b' :: (mid ++ ['\x7d']))))
    ∧ (∀ b v, findJsonBlock s = some b → parse b = some v →
        robustJsonParse parse s = some v)
    ∧ (∀ b, findJsonBlock s = some b → parse b = none →
        robustJsonParse parse s = parse (fixTrailingCommas b))
    ∧ (robustJsonParse parse s = none ↔
        (findJsonBlock s = none
          ∨ ∃ b, findJsonBlock s = some b ∧ parse b = none
              ∧ parse (fixTrailingCommas b) = none))
    ∧ fixTrailingCommas ['\x7b', '1', ',', ' ', '2', ',', ' ', '\x7d']
      = ['\x7b', '1', ',', ' ', '2', '\x7d'] := by
  refine ⟨?_, ?_, ?_, ?_, by decide⟩
  · rw [robustJsonParse.eq_def, findJsonBlock_prose pre mid post hpre hpost]
  · intro b v hb hv
    simp [robustJsonParse, hb, hv]
  · intro b hb hv
    simp [robustJsonParse, hb, hv]
  · cases hfb : findJsonBlock s with
    | none => simp [robustJsonParse, hfb]
    | some b =>
      cases hp : parse b with
      | some v => simp [robustJsonParse, hfb, hp]
      | none => simp [robustJsonParse, hfb, hp]

/-- Witness for C7: concrete prose around `(braces)` with a parse function
that always fails, exercising extraction, repair and the throw
characterisation. -/
theorem c7_robustJsonParse_contract_witness :
    (∀ c ∈ (['p'] : List Char), c ≠ '\x7b' ∧ c ≠ '[')
    ∧ ('\x7d' : Char) ∉ (['q'] : List Char)
    ∧ (robustJsonParse (fun _ : List Char => (none : Option Nat))
          (['p'] ++ '\x7b' :: (['a'] ++ '\x7d' :: ['q']))
        = (match (fun _ : List Char => (none : Option Nat)) ('\x7b' :: (['a'] ++ ['\x7d'])) with
           | some v => some v
           | none => (fun _ : List Char => (none : Option Nat))
               (fixTrailingCommas ('\x7b' :: (['a'] ++ ['\x7d']))))
      ∧ (∀ b v, findJsonBlock ['p'] = some b →
          (fun _ : List Char => (none : Option Nat)) b = some v →
          robustJsonParse (fun _ : List Char => (none : Option Nat)) ['p'] = some v)
      ∧ (∀ b, findJsonBlock ['p'] = some b →
          (fun _ : List Char => (none : Option Nat)) b = none →
          robustJsonParse (fun _ : List Char => (none : Option Nat)) ['p']
            = (fun _ : List Char => (none : Option Nat)) (fixTrailingCommas b))
      ∧ (robustJsonParse (fun _ : List Char => (none : Option Nat)) ['p'] = none ↔
          (findJsonBlock ['p'] = none
            ∨ ∃ b, findJsonBlock ['p'] = some b
                ∧ (fun _ : List Char => (none : Option Nat)) b = none
                ∧ (fun _ : List Char => (none : Option Nat)) (fixTrailingCommas b) = none))
      ∧ fixTrailingCommas ['\x7b', '1', ',', ' ', '2', ',', ' ', '\x7d']
        = ['\x7b', '1', ',', ' ', '2', '\x7d']) :=
  ⟨by decide, by decide,
    c7_robustJsonParse_contract (fun _ : List Char => (none : Option Nat))
      ['p'] ['a'] ['q'] ['p'] (by decide) (by decide)⟩

end RobustJsonParse

section ConnectedComponents

theorem buildAdj_mem_aux (n : Nat) :
    ∀ (edges : List (Nat × Nat)) (f : Nat → List Nat) (u x : Nat),
      x ∈ (edges.foldl (fun adj e =>
        if e.1 < n ∧ e.2 < n then
          fun w =>
            let a1 := if w = e.1 then adj w ++ [e.2] else adj w
            if w = e.2 then a1 ++ [e.1] else a1
        else adj) f) u
      ↔ x ∈ f u ∨ (((u, x) ∈ edges ∨ (x, u) ∈ edges) ∧ u < n ∧ x < n) := by
  intro edges
  induction edges with
  | nil => intro f u x; simp
  | cons e es ih =>
    intro f u x
    rw [List.foldl_cons, ih]
    clear ih
    have hstep : x ∈ (if e.1 < n ∧ e.2 < n then
        (fun w =>
          let a1 := if w = e.1 then (f w) ++ [e.2] else f w
          if w = e.2 then a1 ++ [e.1] else a1)
      else f) u
      ↔ x ∈ f u ∨ ((e.1 < n ∧ e.2 < n) ∧ ((u = e.1 ∧ x = e.2) ∨ (u = e.2 ∧ x = e.1))) := by
      by_cases hb : e.1 < n ∧ e.2 < n
      · rw [if_pos hb]
        by_cases h2 : u = e.2
        · subst h2
          by_cases h1 : e.2 = e.1
          · simp [h1, hb]
          · simp [h1, hb]
        · by_cases h1 : u = e.1
          · subst h1
            simp [h2, hb]
          · simp [h1, h2, hb]
      · rw [if_neg hb]
        constructor
        · intro h
          exact Or.inl h
        · rintro (h | ⟨hb2, _⟩)
          · exact h
          · exact absurd hb2 hb
    rw [hstep]
    constructor
    · rintro ((hf | ⟨hb, hc⟩) | ⟨hin, hu, hx⟩)
      · exact Or.inl hf
      · rcases hc with ⟨rfl, rfl⟩ | ⟨rfl, rfl⟩
        · exact Or.inr ⟨Or.inl (by simp), hb⟩
        · exact Or.inr ⟨Or.inr (by simp), hb.2, hb.1⟩
      · refine Or.inr ⟨?_, hu, hx⟩
        rcases hin with hin | hin
        · exact Or.inl (List.mem_cons_of_mem e hin)
        · exact Or.inr (List.mem_cons_of_mem e hin)
    · rintro (hf | ⟨hin, hu, hx⟩)
      · exact Or.inl (Or.inl hf)
      · rcases hin with hin | hin
        · rcases List.mem_cons.mp hin with heq | hin
          · have h1 : u = e.1 := congrArg Prod.fst heq
            have h2 : x = e.2 := congrArg Prod.snd heq
            exact Or.inl (Or.inr ⟨⟨h1 ▸ hu, h2 ▸ hx⟩, Or.inl ⟨h1, h2⟩⟩)
          · exact Or.inr ⟨Or.inl hin, hu, hx⟩
        · rcases List.mem_cons.mp hin with heq | hin
          · have h1 : x = e.1 := congrArg Prod.fst heq
            have h2 : u = e.2 := congrArg Prod.snd heq
            exact Or.inl (Or.inr ⟨⟨h1 ▸ hx, h2 ▸ hu⟩, Or.inr ⟨h2, h1⟩⟩)
          · exact Or.inr ⟨Or.inr hin, hu, hx⟩

theorem buildAdj_mem (n : Nat) (edges : List (Nat × Nat)) (u x : Nat) :
    x ∈ buildAdj n edges u ↔ ((u, x) ∈ edges ∨ (x, u) ∈ edges) ∧ u < n ∧ x < n := by
  rw [buildAdj, buildAdj_mem_aux]
  simp

theorem buildAdj_lt {n : Nat} {edges : List (Nat × Nat)} {u x : Nat}
    (h : x ∈ buildAdj n edges u) : x < n :=
  ((buildAdj_mem n edges u x).mp h).2.2

theorem enqStep_fst_mem :
    ∀ (nbrs : List Nat) (visited : Finset Nat) (queue : List Nat) (x : Nat),
      x ∈ (enqStep nbrs visited queue).1 ↔ x ∈ visited ∨ x ∈ nbrs := by
  intro nbrs
  induction nbrs with
  | nil => intro visited queue x; simp [enqStep]
  | cons v vs ih =>
    intro visited queue x
    rw [enqStep]
    by_cases hv : v ∈ visited
    · rw [if_pos hv, ih]
      constructor
      · rintro (h | h)
        · exact Or.inl h
        · exact Or.inr (List.mem_cons_of_mem v h)
      · rintro (h | h)
        · exact Or.inl h
        · rcases List.mem_cons.mp h with rfl | h
          · exact Or.inl hv
          · exact Or.inr h
    · rw [if_neg hv, ih]
      simp only [Finset.mem_insert, List.mem_cons]
      tauto

theorem enqStep_snd_mem :
    ∀ (nbrs : List Nat) (visited : Finset Nat) (queue : List Nat) (x : Nat),
      x ∈ (enqStep nbrs visited queue).2 ↔ x ∈ queue ∨ (x ∈ nbrs ∧ x ∉ visited) := by
  intro nbrs
  induction nbrs with
  | nil => intro visited queue x; simp [enqStep]
  | cons v vs ih =>
    intro visited queue x
    rw [enqStep]
    by_cases hv : v ∈ visited
    · rw [if_pos hv, ih]
      by_cases hx : x = v
      · subst hx
        simp [hv]
      · simp only [List.mem_cons]
        tauto
    · rw [if_neg hv, ih]
      by_cases hx : x = v
      · subst hx
        simp [hv]
      · simp only [List.mem_append, List.mem_singleton, List.mem_cons,
          Finset.mem_insert, hx]
        tauto

theorem enqStep_measure {n : Nat} :
    ∀ (nbrs : List Nat) (visited : Finset Nat) (queue : List Nat),
      (∀ v ∈ nbrs, v < n) →
      (Finset.range n \ (enqStep nbrs visited queue).1).card
          + (enqStep nbrs visited queue).2.length
        = (Finset.range n \ visited).card + queue.length := by
  intro nbrs
  induction nbrs with
  | nil => intro visited queue _; rfl
  | cons v vs ih =>
    intro visited queue h
    rw [enqStep]
    by_cases hv : v ∈ visited
    · rw [if_pos hv]
      exact ih visited queue (fun w hw => h w (List.mem_cons_of_mem v hw))
    · rw [if_neg hv]
      rw [ih (insert v visited) (queue ++ [v])
        (fun w hw => h w (List.mem_cons_of_mem v hw))]
      rw [Finset.sdiff_insert, List.length_append]
      have hvmem : v ∈ Finset.range n \ visited :=
        Finset.mem_sdiff.mpr ⟨Finset.mem_range.mpr (h v (List.mem_cons_self _ _)), hv⟩
      rw [Finset.card_erase_of_mem hvmem]
      have hpos : 1 ≤ (Finset.range n \ visited).card :=
        Finset.card_pos.mpr ⟨v, hvmem⟩
      simp only [List.length_singleton]
      omega

theorem bfsAux_spec (n : Nat) (adj : Nat → List Nat)
    (hadj : ∀ u v, v ∈ adj u → v < n) :
    ∀ (fuel : Nat) (queue : List Nat) (visited : Finset Nat) (acc : List Nat),
      (Finset.range n \ visited).card + queue.length ≤ fuel →
      (∀ u ∈ queue, u ∈ visited) →
      (∀ u ∈ visited, u ∉ queue → ∀ v ∈ adj u, v ∈ visited) →
      (∀ x, x ∈ (bfsAux adj fuel queue visited acc).2 ↔
          x ∈ visited ∨ ∃ u ∈ queue, adjReach adj u x)
      ∧ (∀ x, x ∈ (bfsAux adj fuel queue visited acc).1 ↔
          x ∈ acc ∨ x ∈ queue ∨ (x ∈ (bfsAux adj fuel queue visited acc).2 ∧ x ∉ visited))
      ∧ (∀ u ∈ (bfsAux adj fuel queue visited acc).2, ∀ v ∈ adj u,
          v ∈ (bfsAux adj fuel queue visited acc).2) := by
  intro fuel
  induction fuel with
  | zero =>
    intro queue visited acc hfuel hq hdone
    match queue with
    | [] =>
      refine ⟨?_, ?_, ?_⟩
      · intro x
        simp [bfsAux]
      · intro x
        simp only [bfsAux, List.mem_reverse, List.not_mem_nil, false_or]
        constructor
        · intro h; exact Or.inl h
        · rintro (h | ⟨h1, h2⟩)
          · exact h
          · exact absurd h1 h2
      · intro u hu v hv
        simp only [bfsAux] at hu ⊢
        exact hdone u hu (List.not_mem_nil u) v hv
    | u :: rest =>
      exfalso
      simp only [List.length_cons] at hfuel
      omega
  | succ fuel ih =>
    intro queue visited acc hfuel hq hdone
    match queue with
    | [] =>
      refine ⟨?_, ?_, ?_⟩
      · intro x
        simp [bfsAux]
      · intro x
        simp only [bfsAux, List.mem_reverse, List.not_mem_nil, false_or]
        constructor
        · intro h; exact Or.inl h
        · rintro (h | ⟨h1, h2⟩)
          · exact h
          · exact absurd h1 h2
      · intro u hu v hv
        simp only [bfsAux] at hu ⊢
        exact hdone u hu (List.not_mem_nil u) v hv
    | u :: rest =>
      have hres : bfsAux adj (fuel + 1) (u :: rest) visited acc
          = bfsAux adj fuel (enqStep (adj u) visited rest).2
              (enqStep (adj u) visited rest).1 (u :: acc) := rfl
      have hmeas := enqStep_measure (n := n) (adj u) visited rest
        (fun v hv => hadj u v hv)
      have hfuel' : (Finset.range n \ (enqStep (adj u) visited rest).1).card
          + (enqStep (adj u) visited rest).2.length ≤ fuel := by
        simp only [List.length_cons] at hfuel
        omega
      have hq' : ∀ w ∈ (enqStep (adj u) visited rest).2,
          w ∈ (enqStep (adj u) visited rest).1 := by
        intro w hw
        rw [enqStep_snd_mem] at hw
        rw [enqStep_fst_mem]
        rcases hw with hw | ⟨hw, _⟩
        · exact Or.inl (hq w (List.mem_cons_of_mem u hw))
        · exact Or.inr hw
      have hdone' : ∀ w ∈ (enqStep (adj u) visited rest).1,
          w ∉ (enqStep (adj u) visited rest).2 →
          ∀ v ∈ adj w, v ∈ (enqStep (adj u) visited rest).1 := by
        intro w hw hwq v hv
        rw [enqStep_fst_mem]
        by_cases hwu : w = u
        · subst hwu
          exact Or.inr hv
        · by_cases hwv : w ∈ visited
          · have hwrest : w ∉ rest := by
              intro hr
              exact hwq ((enqStep_snd_mem (adj u) visited rest w).mpr (Or.inl hr))
            have hwnotq : w ∉ u :: rest := by
              intro hmem
              rcases List.mem_cons.mp hmem with h | h
              · exact hwu h
              · exact hwrest h
            exact Or.inl (hdone w hwv hwnotq v hv)
          · exfalso
            rw [enqStep_fst_mem] at hw
            rcases hw with hw | hw
            · exact hwv hw
            · exact hwq ((enqStep_snd_mem (adj u) visited rest w).mpr
                (Or.inr ⟨hw, hwv⟩))
      obtain ⟨IH1, IH2, IH3⟩ := ih (enqStep (adj u) visited rest).2
        (enqStep (adj u) visited rest).1 (u :: acc) hfuel' hq' hdone'
      have hvisV : ∀ x ∈ (enqStep (adj u) visited rest).1,
          x ∈ (bfsAux adj fuel (enqStep (adj u) visited rest).2
            (enqStep (adj u) visited rest).1 (u :: acc)).2 := by
        intro x hx
        exact (IH1 x).mpr (Or.inl hx)
      refine ⟨?_, ?_, ?_⟩
      · intro x
        rw [hres, IH1 x]
        constructor
        · rintro (hx | ⟨w, hw, hr⟩)
          · rw [enqStep_fst_mem] at hx
            rcases hx with hx | hx
            · exact Or.inl hx
            · exact Or.inr ⟨u, List.mem_cons_self _ _, Relation.ReflTransGen.single hx⟩
          · rw [enqStep_snd_mem] at hw
            rcases hw with hw | ⟨hw, _⟩
            · exact Or.inr ⟨w, List.mem_cons_of_mem u hw, hr⟩
            · exact Or.inr ⟨u, List.mem_cons_self _ _,
                Relation.ReflTransGen.trans (Relation.ReflTransGen.single hw) hr⟩
        · rintro (hx | ⟨w, hw, hr⟩)
          · exact Or.inl ((enqStep_fst_mem (adj u) visited rest x).mpr (Or.inl hx))
          · rcases List.mem_cons.mp hw with heq | hw
            · rw [heq] at hr
              have hxV : x ∈ (bfsAux adj fuel (enqStep (adj u) visited rest).2
                  (enqStep (adj u) visited rest).1 (u :: acc)).2 := by
                clear hw heq
                induction hr with
                | refl =>
                  exact (IH1 _).mpr (Or.inl ((enqStep_fst_mem (adj u) visited rest u).mpr
                    (Or.inl (hq u (List.mem_cons_self _ _)))))
                | tail hr1 hstep ihr =>
                  exact IH3 _ ihr _ hstep
              exact (IH1 x).mp hxV
            · exact Or.inr ⟨w, (enqStep_snd_mem (adj u) visited rest w).mpr (Or.inl hw), hr⟩
      · intro x
        rw [hres, IH2 x]
        constructor
        · rintro (hx | hx | ⟨hxV, hxE⟩)
          · rcases List.mem_cons.mp hx with rfl | hx
            · exact Or.inr (Or.inl (List.mem_cons_self _ _))
            · exact Or.inl hx
          · rw [enqStep_snd_mem] at hx
            rcases hx with hx | ⟨hx, hnv⟩
            · exact Or.inr (Or.inl (List.mem_cons_of_mem u hx))
            · exact Or.inr (Or.inr ⟨hvisV x ((enqStep_fst_mem (adj u) visited rest x).mpr
                (Or.inr hx)), hnv⟩)
          · refine Or.inr (Or.inr ⟨hxV, ?_⟩)
            intro hxv
            exact hxE ((enqStep_fst_mem (adj u) visited rest x).mpr (Or.inl hxv))
        · rintro (hx | hx | ⟨hxV, hnv⟩)
          · exact Or.inl (List.mem_cons_of_mem u hx)
          · rcases List.mem_cons.mp hx with rfl | hx
            · exact Or.inl (List.mem_cons_self _ _)
            · exact Or.inr (Or.inl ((enqStep_snd_mem (adj u) visited rest x).mpr (Or.inl hx)))
          · by_cases hxE : x ∈ (enqStep (adj u) visited rest).1
            · rw [enqStep_fst_mem] at hxE
              rcases hxE with hxE | hxE
              · exact absurd hxE hnv
              · exact Or.inr (Or.inl ((enqStep_snd_mem (adj u) visited rest x).mpr
                  (Or.inr ⟨hxE, hnv⟩)))
            · exact Or.inr (Or.inr ⟨hxV, hxE⟩)
      · intro w hw v hv
        rw [hres] at hw ⊢
        exact IH3 w hw v hv

theorem reflTransGen_congr {r r' : Nat → Nat → Prop} (h : ∀ a b, r a b ↔ r' a b)
    {a b : Nat} (hr : Relation.ReflTransGen r a b) : Relation.ReflTransGen r' a b := by
  induction hr with
  | refl => exact Relation.ReflTransGen.refl
  | tail _ h2 ihr => exact Relation.ReflTransGen.tail ihr ((h _ _).mp h2)

theorem fccFold_eq (n : Nat) (adj1 adj2 : Nat → List Nat)
    (hadj1 : ∀ u v, v ∈ adj1 u → v < n) (hadj2 : ∀ u v, v ∈ adj2 u → v < n)
    (hrel : ∀ u v, v ∈ adj1 u ↔ v ∈ adj2 u) :
    ∀ (L : List Nat) (vis : Finset Nat) (cls1 cls2 : List (List Nat)),
      (∀ u ∈ vis, ∀ v ∈ adj1 u, v ∈ vis) →
      cls1.map List.toFinset = cls2.map List.toFinset →
      (L.foldl (fccStep adj1 n) (vis, cls1)).1 = (L.foldl (fccStep adj2 n) (vis, cls2)).1
      ∧ (L.foldl (fccStep adj1 n) (vis, cls1)).2.map List.toFinset
        = (L.foldl (fccStep adj2 n) (vis, cls2)).2.map List.toFinset := by
  intro L
  induction L with
  | nil =>
    intro vis cls1 cls2 _ hcls
    exact ⟨rfl, hcls⟩
  | cons i L ih =>
    intro vis cls1 cls2 hclosed hcls
    rw [List.foldl_cons, List.foldl_cons]
    by_cases hi : i ∈ vis
    · rw [show fccStep adj1 n (vis, cls1) i = (vis, cls1) from by simp [fccStep, hi]]
      rw [show fccStep adj2 n (vis, cls2) i = (vis, cls2) from by simp [fccStep, hi]]
      exact ih vis cls1 cls2 hclosed hcls
    · have hfuel1 : (Finset.range n \ insert i vis).card + ([i] : List Nat).length ≤ n + 1 := by
        have hle : (Finset.range n \ insert i vis).card ≤ n := by
          calc (Finset.range n \ insert i vis).card
              ≤ (Finset.range n).card := Finset.card_le_card Finset.sdiff_subset
            _ = n := Finset.card_range n
        simpa using Nat.succ_le_succ hle
      have hq1 : ∀ u ∈ ([i] : List Nat), u ∈ insert i vis := by
        intro u hu
        rcases List.mem_singleton.mp hu with rfl
        exact Finset.mem_insert_self _ _
      have hdone1 : ∀ u ∈ insert i vis, u ∉ ([i] : List Nat) →
          ∀ v ∈ adj1 u, v ∈ insert i vis := by
        intro u hu hnq v hv
        rcases Finset.mem_insert.mp hu with rfl | hu
        · exact absurd (List.mem_singleton.mpr rfl) hnq
        · exact Finset.mem_insert_of_mem (hclosed u hu v hv)
      have hdone2 : ∀ u ∈ insert i vis, u ∉ ([i] : List Nat) →
          ∀ v ∈ adj2 u, v ∈ insert i vis := by
        intro u hu hnq v hv
        rcases Finset.mem_insert.mp hu with rfl | hu
        · exact absurd (List.mem_singleton.mpr rfl) hnq
        · exact Finset.mem_insert_of_mem (hclosed u hu v ((hrel u v).mpr hv))
      obtain ⟨S11, S12, S13⟩ := bfsAux_spec n adj1 hadj1 (n + 1) [i] (insert i vis) []
        hfuel1 hq1 hdone1
      obtain ⟨S21, S22, S23⟩ := bfsAux_spec n adj2 hadj2 (n + 1) [i] (insert i vis) []
        hfuel1 hq1 hdone2
      have hviseq : (bfsAux adj1 (n + 1) [i] (insert i vis) []).2
          = (bfsAux adj2 (n + 1) [i] (insert i vis) []).2 := by
        apply Finset.ext
        intro x
        rw [S11 x, S21 x]
        constructor
        · rintro (h | ⟨w, hw, hr⟩)
          · exact Or.inl h
          · exact Or.inr ⟨w, hw, reflTransGen_congr (fun a b => hrel a b) hr⟩
        · rintro (h | ⟨w, hw, hr⟩)
          · exact Or.inl h
          · exact Or.inr ⟨w, hw, reflTransGen_congr (fun a b => (hrel a b).symm) hr⟩
      have hcleq : List.toFinset (bfsAux adj1 (n + 1) [i] (insert i vis) []).1
          = List.toFinset (bfsAux adj2 (n + 1) [i] (insert i vis) []).1 := by
        apply Finset.ext
        intro x
        rw [List.mem_toFinset, List.mem_toFinset, S12 x, S22 x, hviseq]
      rw [show fccStep adj1 n (vis, cls1) i
          = ((bfsAux adj1 (n + 1) [i] (insert i vis) []).2,
              cls1 ++ [(bfsAux adj1 (n + 1) [i] (insert i vis) []).1]) from by
        simp [fccStep, hi]]
      rw [show fccStep adj2 n (vis, cls2) i
          = ((bfsAux adj2 (n + 1) [i] (insert i vis) []).2,
              cls2 ++ [(bfsAux adj2 (n + 1) [i] (insert i vis) []).1]) from by
        simp [fccStep, hi]]
      rw [← hviseq]
      refine ih _ _ _ S13 ?_
      rw [List.map_append, List.map_append, hcls]
      simp [hcleq]

/-- C4: `findConnectedComponents` depends only on the set of edges — for
every node count and every two edge lists inducing the same bounds-checked
undirected edge relation (hence under permutation or duplication of edges),
the resulting partition of nodes into clusters is identical; in particular,
on 4 nodes the edges (0,1) and (2,3) give the two clusters 0,1 and 2,3,
and adding the edge (1,2) gives the single cluster 0,1,2,3.  (Running the
computation twice on the same edge list trivially yields identical output,
the function being pure.) -/
theorem c4_components_depend_only_on_edge_set (n : Nat) (e1 e2 : List (Nat × Nat))
    (hset : ∀ u v, edgeConnects e1 n u v ↔ edgeConnects e2 n u v) :
    (findConnectedComponents n e1).map List.toFinset
      = (findConnectedComponents n e2).map List.toFinset
    ∧ findConnectedComponents 4 [(0, 1), (2, 3)] = [[0, 1], [2, 3]]
    ∧ findConnectedComponents 4 [(0, 1), (2, 3), (1, 2)] = [[0, 1, 2, 3]] := by
  refine ⟨?_, by decide, by decide⟩
  by_cases hn : n = 0
  · subst hn
    rfl
  · rw [findConnectedComponents, findConnectedComponents, if_neg hn, if_neg hn]
    have hrel : ∀ u v, v ∈ buildAdj n e1 u ↔ v ∈ buildAdj n e2 u := by
      intro u v
      rw [buildAdj_mem, buildAdj_mem]
      exact hset u v
    exact (fccFold_eq n (buildAdj n e1) (buildAdj n e2)
      (fun u v hv => buildAdj_lt hv) (fun u v hv => buildAdj_lt hv) hrel
      (List.range n) ∅ [] [] (by simp) rfl).2

/-- Witness for C4: the second edge list is the first permuted with one
edge duplicated; the partitions agree. -/
theorem c4_components_depend_only_on_edge_set_witness :
    (∀ u v, edgeConnects [(0, 1), (2, 3)] 4 u v
        ↔ edgeConnects [(2, 3), (0, 1), (0, 1)] 4 u v)
    ∧ ((findConnectedComponents 4 [(0, 1), (2, 3)]).map List.toFinset
        = (findConnectedComponents 4 [(2, 3), (0, 1), (0, 1)]).map List.toFinset
      ∧ findConnectedComponents 4 [(0, 1), (2, 3)] = [[0, 1], [2, 3]]
      ∧ findConnectedComponents 4 [(0, 1), (2, 3), (1, 2)] = [[0, 1, 2, 3]]) := by
  have hset : ∀ u v, edgeConnects [(0, 1), (2, 3)] 4 u v
      ↔ edgeConnects [(2, 3), (0, 1), (0, 1)] 4 u v := by
    intro u v
    simp [edgeConnects, Prod.ext_iff]
    tauto
  exact ⟨hset, c4_components_depend_only_on_edge_set 4 _ _ hset⟩

end ConnectedComponents
